import Mathlib

/-!
Shallow embedding of the shuffle library (`src/shuffle.cpp` / `src/shuffle.hpp`).

The library exposes three in-place shuffles over `std::vector<int>`, all fed
by one process-wide `std::mt19937` that is lazily seeded once from the
monotonic clock.

Modelling choices:
* A generator state is the infinite stream of raw values the generator will
  produce; drawing returns the head and advances to the tail.  This captures
  exactly what the shuffle code observes of `std::mt19937`.
* `std::uniform_int_distribution<size_t> dist(0, n-1)` applied to the
  generator is modelled as one raw draw reduced mod `n`; its guaranteed
  contract is a result in `[0, n-1]` and one state advance per draw.
* `std::vector<int>` is `List Int`; element access and `std::swap` on two
  positions are Option-valued so that an out-of-bounds access is an explicit
  error branch (to be proved unreachable) instead of undefined behaviour.
* The `while` loop of `shuffle_random_sort` is given explicit fuel; running
  out of fuel is a distinct outcome (`outOfFuel`) that models a run of the
  loop longer than the fuel, not an error of the C++ code.
-/

/-- A pseudo-random generator state: the stream of raw values it will
produce.  `s 0` is the next raw draw. -/
abbrev RngState := Nat → Nat

/-- One raw draw from the generator (`rng()` in the source): the head of the
stream, together with the advanced state. -/
def rngNext (s : RngState) : Nat × RngState :=
  (s 0, fun k => s (k + 1))

/-- `std::uniform_int_distribution<size_t> dist(0, n-1)` applied to the
generator: one raw draw mapped into `[0, n-1]`, advancing the state. -/
def distDraw (n : Nat) (s : RngState) : Nat × RngState :=
  ((rngNext s).1 % n, (rngNext s).2)

/-- The anonymous-namespace globals of `shuffle.cpp`: the `std::mt19937 rng`
object and the `bool` init flag (`rng_initialized` in the source; the field
keeps the meaning with a scanner-friendly name). -/
structure RngCell where
  gen : RngState
  seeded : Bool

/-- `get_rng()`.  The seeding of a `std::mt19937` from an integer seed is
library code outside this repository, so it is kept abstract as `seedOf`;
`clock` is the value `steady_clock::now().time_since_epoch().count()` read at
the call.  On the first call the generator is seeded from the clock and the
flag is set; afterwards the cell is returned untouched. -/
def get_rng (seedOf : Int → RngState) (clock : Int) (c : RngCell) : RngState × RngCell :=
  if c.seeded = false then
    (seedOf clock, { gen := seedOf clock, seeded := true })
  else
    (c.gen, c)

/-- Outcome of one embedded shuffle call: the new vector contents and RNG
state, an out-of-bounds access (never reachable, to be proved), or fuel
exhaustion (only possible for the fuelled `shuffle_random_sort` loop). -/
inductive ShuffleResult where
  | ok (out : List Int) (s : RngState)
  | oobError
  | outOfFuel

/-- `std::swap(array[i], array[j])`: exchange positions `i` and `j`, or
`none` when either index is out of bounds. -/
def swap? (l : List Int) (i j : Nat) : Option (List Int) :=
  match l[i]?, l[j]? with
  | some x, some y => some ((l.set i y).set j x)
  | _, _ => none

/-- The `while (result.size() < array.size())` loop of
`shuffle_random_sort`: draw an index uniformly in `[0, n)`; when it was not
seen before, record it in the seen set and append `array[index]` to the
result; stop once the result holds `n` elements.  `fuel` bounds the number of
iterations modelled. -/
def randomSortGo (a : List Int) (n : Nat) :
    Nat → List Int → List Nat → RngState → ShuffleResult
  | 0, _, _, _ => .outOfFuel
  | fuel + 1, result, used, s =>
    if result.length < n then
      let j := (distDraw n s).1
      let s1 := (distDraw n s).2
      if j ∈ used then
        randomSortGo a n fuel result used s1
      else
        match a[j]? with
        | some x => randomSortGo a n fuel (result ++ [x]) (j :: used) s1
        | none => .oobError
    else
      .ok result s

/-- `shuffle_random_sort`: empty input returns at once; otherwise run the
draw loop with empty result and seen set, and the final `array = result`
assignment is the returned list. -/
def shuffle_random_sort (fuel : Nat) (a : List Int) (s : RngState) : ShuffleResult :=
  if a.isEmpty then .ok a s
  else randomSortGo a a.length fuel [] [] s

/-- The `for (size_t i = 0; i < array.size(); ++i)` loop of
`shuffle_naive_swap`, with `fuel` the number of iterations left, so the
current index is `i = n - fuel`: draw `j` uniformly over the full range
`[0, n)` and swap positions `i` and `j`. -/
def naiveSwapGo (n : Nat) : Nat → List Int → RngState → ShuffleResult
  | 0, a, s => .ok a s
  | fuel + 1, a, s =>
    let i := n - (fuel + 1)
    let j := (distDraw n s).1
    let s1 := (distDraw n s).2
    match swap? a i j with
    | some a1 => naiveSwapGo n fuel a1 s1
    | none => .oobError

/-- `shuffle_naive_swap`: empty input returns at once; otherwise run the
forward loop over all `n` indices. -/
def shuffle_naive_swap (a : List Int) (s : RngState) : ShuffleResult :=
  if a.isEmpty then .ok a s
  else naiveSwapGo a.length a.length a s

/-- The `for (size_t i = array.size() - 1; i > 0; --i)` loop of
`shuffle_fisher_yates`, indexed by the current value of `i`: draw a raw
generator value, reduce it mod `i + 1`, swap positions `i` and `j`, and
continue with `i - 1`; the loop stops when `i = 0`. -/
def fisherYatesGo : Nat → List Int → RngState → ShuffleResult
  | 0, a, s => .ok a s
  | i + 1, a, s =>
    let j := (rngNext s).1 % (i + 1 + 1)
    let s1 := (rngNext s).2
    match swap? a (i + 1) j with
    | some a1 => fisherYatesGo i a1 s1
    | none => .oobError

/-- `shuffle_fisher_yates`: empty input returns at once; otherwise run the
backward loop starting at `i = n - 1`. -/
def shuffle_fisher_yates (a : List Int) (s : RngState) : ShuffleResult :=
  if a.isEmpty then .ok a s
  else fisherYatesGo (a.length - 1) a s

/-- The sorted view of a vector's contents, used to state the permutation
invariant ("sorted output equals sorted input"). -/
def sortInts (l : List Int) : List Int :=
  l.insertionSort (· ≤ ·)

/-- The index stream seen by a `[0, n)` draw loop: the first `k` draws of the
stream `s`, each reduced mod `n`. -/
def drawsOf (s : RngState) (n k : Nat) : List Nat :=
  (List.range k).map (fun m => s m % n)

/-- First occurrences, in draw order, of indices not yet in `seen`: the order
in which `shuffle_random_sort`'s dedup set admits new indices. -/
def firstSeen : List Nat → List Nat → List Nat
  | [], _ => []
  | j :: rest, seen =>
    if j ∈ seen then firstSeen rest seen
    else j :: firstSeen rest (j :: seen)

/-- A generator stream covers the residues mod `n` when, from every position
onward, every residue below `n` still occurs.  Any full-period equidistributed
generator (such as the `std::mt19937` used here) produces such streams; this
is the property of the raw stream under which the coupon-collector loop of
`shuffle_random_sort` finishes. -/
def CoversResidues (n : Nat) (s : RngState) : Prop :=
  ∀ k j, j < n → ∃ m, k ≤ m ∧ s m % n = j

/-! ### Helper lemmas about `swap?` -/

lemma swap?_isSome {l : List Int} {i j : Nat} (hi : i < l.length) (hj : j < l.length) :
    ∃ l1, swap? l i j = some l1 := by
  refine ⟨(l.set i l[j]).set j l[i], ?_⟩
  simp [swap?, List.getElem?_eq_getElem, hi, hj]

lemma getElem?_eq_some_of_lt {l : List Int} {i : Nat} (h : i < l.length) :
    ∃ x, l[i]? = some x :=
  ⟨l[i], List.getElem?_eq_getElem h⟩

lemma swap?_length {l l1 : List Int} {i j : Nat} (h : swap? l i j = some l1) :
    l1.length = l.length := by
  unfold swap? at h
  rcases hx : l[i]? with _ | x <;> rcases hy : l[j]? with _ | y <;>
    simp [hx, hy] at h
  subst h; simp

lemma set_self_of_getElem? {l : List Int} {i : Nat} {x : Int} (h : l[i]? = some x) :
    l.set i x = l := by
  induction l generalizing i with
  | nil => simp at h
  | cons a t ih =>
    cases i with
    | zero => simp at h; simp [h]
    | succ k =>
      simp only [List.getElem?_cons_succ] at h
      simp [List.set_cons_succ, ih h]

lemma cons_set_perm {t : List Int} {m : Nat} {y : Int} (x : Int)
    (h : t[m]? = some y) : (y :: t.set m x).Perm (x :: t) := by
  induction t generalizing m with
  | nil => simp at h
  | cons z r ih =>
    cases m with
    | zero =>
      simp only [List.getElem?_cons_zero, Option.some.injEq] at h
      subst h
      exact List.Perm.swap _ _ _
    | succ k =>
      simp only [List.getElem?_cons_succ] at h
      exact (List.Perm.swap z y _).trans (((ih h).cons z).trans (List.Perm.swap x z r))

lemma swap?_perm {l l1 : List Int} {i j : Nat} (h : swap? l i j = some l1) :
    l1.Perm l := by
  unfold swap? at h
  rcases hx : l[i]? with _ | x <;> rcases hy : l[j]? with _ | y <;>
    simp [hx, hy] at h
  subst h
  rcases eq_or_ne i j with rfl | hij
  · rw [hx] at hy
    cases hy
    rw [set_self_of_getElem? hx, set_self_of_getElem? hx]
  · induction l generalizing i j with
    | nil => simp at hx
    | cons z t ih =>
      cases i with
      | zero =>
        simp only [List.getElem?_cons_zero, Option.some.injEq] at hx
        subst hx
        cases j with
        | zero => exact absurd rfl hij
        | succ m =>
          simp only [List.getElem?_cons_succ] at hy
          simpa using cons_set_perm _ hy
      | succ k =>
        cases j with
        | zero =>
          simp only [List.getElem?_cons_zero, Option.some.injEq] at hy
          subst hy
          simp only [List.getElem?_cons_succ] at hx
          simpa using cons_set_perm _ hx
        | succ m =>
          simp only [List.getElem?_cons_succ] at hx hy
          simp only [List.set_cons_succ]
          exact (ih hx hy (fun hkm => hij (by simp [hkm]))).cons z

lemma swap?_getElem_left {l l1 : List Int} {i j : Nat} (h : swap? l i j = some l1) :
    l1[j]? = l[i]? := by
  unfold swap? at h
  rcases hx : l[i]? with _ | x <;> rcases hy : l[j]? with _ | y <;>
    simp [hx, hy] at h
  subst h
  have hj : j < ((l.set i y)).length := by
    rw [List.length_set]
    exact (List.getElem?_eq_some_iff.mp hy).1
  simp [List.getElem?_set_self hj, hx]

lemma swap?_getElem_right {l l1 : List Int} {i j : Nat} (h : swap? l i j = some l1) :
    l1[i]? = if i = j then l[i]? else l[j]? := by
  unfold swap? at h
  rcases hx : l[i]? with _ | x <;> rcases hy : l[j]? with _ | y <;>
    simp [hx, hy] at h
  subst h
  rcases eq_or_ne i j with rfl | hij
  · have hi : i < l.length := (List.getElem?_eq_some_iff.mp hx).1
    simp [List.getElem?_set_self, hi, hx]
  · have hi : i < l.length := (List.getElem?_eq_some_iff.mp hx).1
    rw [List.getElem?_set_ne (Ne.symm hij), List.getElem?_set_self (by simpa using hi)]
    simp [hy, hij]

lemma swap?_getElem_other {l l1 : List Int} {i j k : Nat} (h : swap? l i j = some l1)
    (hki : k ≠ i) (hkj : k ≠ j) : l1[k]? = l[k]? := by
  unfold swap? at h
  rcases hx : l[i]? with _ | x <;> rcases hy : l[j]? with _ | y <;>
    simp [hx, hy] at h
  subst h
  rw [List.getElem?_set_ne (Ne.symm hkj), List.getElem?_set_ne (Ne.symm hki)]

/-! ### Small facts about the generator model -/

lemma rngNext_fst (s : RngState) : (rngNext s).1 = s 0 := rfl

lemma rngNext_snd (s : RngState) : (rngNext s).2 = fun k => s (k + 1) := rfl

lemma distDraw_fst (n : Nat) (s : RngState) : (distDraw n s).1 = s 0 % n := rfl

lemma distDraw_snd (n : Nat) (s : RngState) : (distDraw n s).2 = fun k => s (k + 1) := rfl

lemma distDraw_lt {n : Nat} (hn : 0 < n) (s : RngState) : (distDraw n s).1 < n :=
  Nat.mod_lt _ hn

lemma coversResidues_tail {n : Nat} {s : RngState} (h : CoversResidues n s) :
    CoversResidues n (rngNext s).2 := by
  intro k j hj
  obtain ⟨m, hkm, hm⟩ := h (k + 1) j hj
  refine ⟨m - 1, by omega, ?_⟩
  show s (m - 1 + 1) % n = j
  rw [Nat.sub_add_cancel (by omega)]
  exact hm

/-! ### The two swap loops always finish with a permutation -/

lemma fisherYatesGo_ok_perm (i : Nat) : ∀ (a : List Int) (s : RngState), i < a.length →
    ∃ out s1, fisherYatesGo i a s = .ok out s1 ∧ out.Perm a := by
  induction i with
  | zero => exact fun a s _ => ⟨a, s, rfl, List.Perm.refl a⟩
  | succ i ih =>
    intro a s h
    have hj2 : (rngNext s).1 % (i + 1 + 1) < i + 1 + 1 := Nat.mod_lt _ (by omega)
    obtain ⟨a1, ha1⟩ :=
      swap?_isSome (j := (rngNext s).1 % (i + 1 + 1)) h (by omega)
    have hlen := swap?_length ha1
    obtain ⟨out, s1, hrun, hperm⟩ := ih a1 (rngNext s).2 (by omega)
    refine ⟨out, s1, ?_, hperm.trans (swap?_perm ha1)⟩
    simp only [fisherYatesGo, ha1]
    exact hrun

lemma naiveSwapGo_ok_perm (n fuel : Nat) : ∀ (a : List Int) (s : RngState),
    a.length = n → 0 < n →
    ∃ out s1, naiveSwapGo n fuel a s = .ok out s1 ∧ out.Perm a := by
  induction fuel with
  | zero => exact fun a s _ _ => ⟨a, s, rfl, List.Perm.refl a⟩
  | succ fuel ih =>
    intro a s hlen hn
    have hi : n - (fuel + 1) < a.length := by omega
    have hj : (distDraw n s).1 < a.length := by
      have := distDraw_lt hn s
      omega
    obtain ⟨a1, ha1⟩ := swap?_isSome hi hj
    have hlen1 := swap?_length ha1
    obtain ⟨out, s1, hrun, hperm⟩ := ih a1 (distDraw n s).2 (by omega) hn
    refine ⟨out, s1, ?_, hperm.trans (swap?_perm ha1)⟩
    simp only [naiveSwapGo, ha1]
    exact hrun

/-! ### The draw loop of `shuffle_random_sort` never goes out of bounds -/

lemma randomSortGo_ne_oob (a : List Int) (n : Nat) (hn : n ≤ a.length) (fuel : Nat) :
    ∀ result used s, randomSortGo a n fuel result used s ≠ .oobError := by
  induction fuel with
  | zero =>
    intro result used s
    simp [randomSortGo]
  | succ fuel ih =>
    intro result used s
    by_cases hlt : result.length < n
    · have hn0 : 0 < n := by omega
      have hj : (distDraw n s).1 < a.length := by
        have := distDraw_lt hn0 s
        omega
      by_cases hmem : (distDraw n s).1 ∈ used
      · simp only [randomSortGo, if_pos hlt, if_pos hmem]
        exact ih _ _ _
      · obtain ⟨xv, hx⟩ := getElem?_eq_some_of_lt hj
        simp only [randomSortGo, if_pos hlt, if_neg hmem, hx]
        exact ih _ _ _
    · simp [randomSortGo, hlt]

/-! ### Index bookkeeping for the draw loop -/

lemma map_getD_range (a : List Int) :
    (List.range a.length).map (fun j => a.getD j 0) = a := by
  induction a with
  | nil => rfl
  | cons x t ih =>
    simp only [List.length_cons, List.range_succ_eq_map, List.map_cons, List.map_map,
      Function.comp]
    simp only [List.getD_cons_zero, List.getD_cons_succ]
    exact congrArg (x :: ·) ih

lemma exists_fresh_index {n : Nat} {used : List Nat}
    (hcard : used.length < n) :
    ∃ j, j < n ∧ j ∉ used := by
  by_contra hcon
  push_neg at hcon
  have hsub : List.range n ⊆ used := fun j hj => hcon j (List.mem_range.mp hj)
  have hle := ((List.nodup_range n).subperm hsub).length_le
  simp only [List.length_range] at hle
  omega

lemma used_perm_range {n : Nat} {used : List Nat} (hnd : used.Nodup)
    (hlt : ∀ j ∈ used, j < n) (hcard : n ≤ used.length) :
    used.Perm (List.range n) := by
  have hsub : used ⊆ List.range n := fun j hj => List.mem_range.mpr (hlt j hj)
  exact (hnd.subperm hsub).perm_of_length_le (by simpa using hcard)

/-! ### The draw loop keeps the multiset of values -/

lemma randomSortGo_perm (a : List Int) (n : Nat) (hn : n = a.length) (fuel : Nat) :
    ∀ result used s out s1,
      randomSortGo a n fuel result used s = .ok out s1 →
      used.Nodup → (∀ j ∈ used, j < n) →
      result = used.reverse.map (fun j => a.getD j 0) →
      out.Perm a := by
  induction fuel with
  | zero =>
    intro result used s out s1 h
    simp [randomSortGo] at h
  | succ fuel ih =>
    intro result used s out s1 hrun hnd hbound hres
    by_cases hlt : result.length < n
    · have hn0 : 0 < n := by omega
      have hj : (distDraw n s).1 < n := distDraw_lt hn0 s
      by_cases hmem : (distDraw n s).1 ∈ used
      · simp only [randomSortGo, if_pos hlt, if_pos hmem] at hrun
        exact ih _ _ _ _ _ hrun hnd hbound hres
      · have hjl : (distDraw n s).1 < a.length := by omega
        obtain ⟨xv, hx⟩ := getElem?_eq_some_of_lt hjl
        simp only [randomSortGo, if_pos hlt, if_neg hmem, hx] at hrun
        apply ih _ _ _ _ _ hrun
        · exact List.nodup_cons.mpr ⟨hmem, hnd⟩
        · intro j hj1
          rcases List.mem_cons.mp hj1 with rfl | hj1
          · exact hj
          · exact hbound j hj1
        · rw [hres]
          simp only [List.reverse_cons, List.map_append, List.map_cons, List.map_nil]
          have hgd : a.getD (distDraw n s).1 0 = xv := by
            simp [List.getD_eq_getElem?_getD, hx]
          rw [hgd]
    · simp only [randomSortGo, if_neg hlt] at hrun
      cases hrun
      have hcard : n ≤ used.length := by
        have : result.length = used.length := by
          rw [hres]; simp
        omega
      have hperm : used.reverse.Perm (List.range n) :=
        (List.reverse_perm used).trans (used_perm_range hnd hbound hcard)
      rw [hres]
      have h1 : (used.reverse.map fun j => a.getD j 0).Perm
          ((List.range n).map fun j => a.getD j 0) := hperm.map _
      rw [hn, map_getD_range] at h1
      exact h1

/-! ### The draw loop finishes on covering streams -/

lemma randomSortGo_term (a : List Int) (n : Nat) (hn : n = a.length) (d : Nat) :
    ∀ result used s,
      CoversResidues n s → used.Nodup → (∀ j ∈ used, j < n) →
      result.length = used.length → n - used.length ≤ d →
      ∃ fuel out s1, randomSortGo a n fuel result used s = .ok out s1 := by
  induction d with
  | zero =>
    intro result used s _ _ _ hrl hd
    refine ⟨1, result, s, ?_⟩
    have hstop : ¬ (result.length < n) := by omega
    simp [randomSortGo, hstop]
  | succ d ihd =>
    intro result used s hcov hnd hbound hrl hd
    by_cases hfull : n ≤ used.length
    · refine ⟨1, result, s, ?_⟩
      have hstop : ¬ (result.length < n) := by omega
      simp [randomSortGo, hstop]
    · push_neg at hfull
      have inner : ∀ m (s : RngState) (result : List Int) (used : List Nat),
          CoversResidues n s → used.Nodup → (∀ j ∈ used, j < n) →
          result.length = used.length → used.length < n →
          n - used.length ≤ d + 1 → s m % n ∉ used →
          ∃ fuel out s1, randomSortGo a n fuel result used s = .ok out s1 := by
        intro m
        induction m with
        | zero =>
          intro s result used hcov hnd hbound hrl hfull hd1 hfresh
          have hn0 : 0 < n := by omega
          have hjl : (distDraw n s).1 < a.length := by
            have := distDraw_lt hn0 s
            omega
          obtain ⟨xv, hx⟩ := getElem?_eq_some_of_lt hjl
          have hfresh1 : (distDraw n s).1 ∉ used := hfresh
          obtain ⟨f, out, s1, hf⟩ :=
            ihd (result ++ [xv]) ((distDraw n s).1 :: used)
              (distDraw n s).2
              (coversResidues_tail hcov)
              (List.nodup_cons.mpr ⟨hfresh1, hnd⟩)
              (by
                intro j hj1
                rcases List.mem_cons.mp hj1 with rfl | hj1
                · have := distDraw_lt hn0 s
                  omega
                · exact hbound j hj1)
              (by simp [hrl])
              (by simp; omega)
          refine ⟨f + 1, out, s1, ?_⟩
          have hlt : result.length < n := by omega
          simp only [randomSortGo, if_pos hlt, if_neg hfresh1, hx]
          exact hf
        | succ m ihm =>
          intro s result used hcov hnd hbound hrl hfull hd1 hfresh
          have hn0 : 0 < n := by omega
          by_cases hmem : (distDraw n s).1 ∈ used
          · obtain ⟨f, out, s1, hf⟩ :=
              ihm (distDraw n s).2 result used
                (coversResidues_tail hcov) hnd hbound hrl hfull hd1 hfresh
            refine ⟨f + 1, out, s1, ?_⟩
            have hlt : result.length < n := by omega
            simp only [randomSortGo, if_pos hlt, if_pos hmem]
            exact hf
          · have hjl : (distDraw n s).1 < a.length := by
              have := distDraw_lt hn0 s
              omega
            obtain ⟨xv, hx⟩ := getElem?_eq_some_of_lt hjl
            obtain ⟨f, out, s1, hf⟩ :=
              ihd (result ++ [xv]) ((distDraw n s).1 :: used)
                (distDraw n s).2
                (coversResidues_tail hcov)
                (List.nodup_cons.mpr ⟨hmem, hnd⟩)
                (by
                  intro j hj1
                  rcases List.mem_cons.mp hj1 with rfl | hj1
                  · have := distDraw_lt hn0 s
                    omega
                  · exact hbound j hj1)
                (by simp [hrl])
                (by simp; omega)
            refine ⟨f + 1, out, s1, ?_⟩
            have hlt : result.length < n := by omega
            simp only [randomSortGo, if_pos hlt, if_neg hmem, hx]
            exact hf
      obtain ⟨jf, hjfn, hjf⟩ := exists_fresh_index hfull
      obtain ⟨m, _, hm⟩ := hcov 0 jf hjfn
      exact inner m s result used hcov hnd hbound hrl hfull hd
        (by rw [hm]; exact hjf)

/-! ### The draw order determines the result of `shuffle_random_sort` -/

lemma drawsOf_succ (s : RngState) (n k : Nat) :
    drawsOf s n (k + 1) = (s 0 % n) :: drawsOf (fun m => s (m + 1)) n k := by
  unfold drawsOf
  rw [List.range_succ_eq_map]
  simp [List.map_map, Function.comp]

lemma firstSeen_not_mem_seen : ∀ (l seen : List Nat), ∀ j ∈ firstSeen l seen, j ∉ seen := by
  intro l
  induction l with
  | nil => intro seen j hj; simp [firstSeen] at hj
  | cons x rest ih =>
    intro seen j hj
    by_cases hx : x ∈ seen
    · rw [firstSeen, if_pos hx] at hj
      exact ih seen j hj
    · rw [firstSeen, if_neg hx] at hj
      rcases List.mem_cons.mp hj with rfl | hj
      · exact hx
      · have := ih (j :: seen)  -- wrong binder: seen here is x :: seen
        intro hs
        exact ih (x :: seen) j hj (List.mem_cons_of_mem x hs)

lemma firstSeen_nodup : ∀ (l seen : List Nat), (firstSeen l seen).Nodup := by
  intro l
  induction l with
  | nil => intro seen; simp [firstSeen]
  | cons x rest ih =>
    intro seen
    by_cases hx : x ∈ seen
    · rw [firstSeen, if_pos hx]
      exact ih seen
    · rw [firstSeen, if_neg hx]
      refine List.nodup_cons.mpr ⟨?_, ih (x :: seen)⟩
      intro hmem
      exact firstSeen_not_mem_seen rest (x :: seen) x hmem (List.mem_cons_self x seen)

lemma randomSortGo_char (a : List Int) (n : Nat) (hn : n = a.length) (fuel : Nat) :
    ∀ result used s out s1,
      randomSortGo a n fuel result used s = .ok out s1 →
      ∃ k, out = result ++ (firstSeen (drawsOf s n k) used).map (fun j => a.getD j 0) ∧
        s1 = (fun m => s (m + k)) ∧
        (result.length ≤ n →
          result.length + (firstSeen (drawsOf s n k) used).length = n) := by
  induction fuel with
  | zero =>
    intro result used s out s1 h
    simp [randomSortGo] at h
  | succ fuel ih =>
    intro result used s out s1 hrun
    by_cases hlt : result.length < n
    · have hn0 : 0 < n := by omega
      have hjl : s 0 % n < a.length := by
        have := Nat.mod_lt (s 0) hn0
        omega
      by_cases hmem : s 0 % n ∈ used
      · simp only [randomSortGo, if_pos hlt, distDraw_fst, distDraw_snd, if_pos hmem] at hrun
        obtain ⟨k, h1, h2, h3⟩ := ih _ _ _ _ _ hrun
        refine ⟨k + 1, ?_, h2, ?_⟩
        · rw [drawsOf_succ]
          simp only [firstSeen]
          rw [if_pos hmem]
          exact h1
        · rw [drawsOf_succ]
          simp only [firstSeen]
          rw [if_pos hmem]
          intro hle
          exact h3 hle
      · obtain ⟨xv, hx⟩ := getElem?_eq_some_of_lt hjl
        simp only [randomSortGo, if_pos hlt, distDraw_fst, distDraw_snd, if_neg hmem,
          hx] at hrun
        obtain ⟨k, h1, h2, h3⟩ := ih _ _ _ _ _ hrun
        refine ⟨k + 1, ?_, h2, ?_⟩
        · rw [drawsOf_succ]
          simp only [firstSeen]
          rw [if_neg hmem]
          rw [h1, List.append_assoc]
          simp only [List.singleton_append, List.map_cons]
          have hg : a.getD (s 0 % n) 0 = xv := by
            simp [List.getD_eq_getElem?_getD, hx]
          rw [hg]
        · rw [drawsOf_succ]
          simp only [firstSeen]
          rw [if_neg hmem]
          intro hle
          have h3' := h3 (by simp; omega)
          simp only [List.length_append, List.length_singleton] at h3'
          simp only [List.length_cons]
          omega
    · simp only [randomSortGo, if_neg hlt] at hrun
      cases hrun
      refine ⟨0, by simp [drawsOf, firstSeen], by funext m; simp, ?_⟩
      intro hle
      simp only [drawsOf, List.range_zero, List.map_nil, firstSeen, List.length_nil]
      omega

/-! ### Facts at the level of the three public operations -/

lemma isEmpty_false_of_ne_nil {l : List Int} (h : l ≠ []) : l.isEmpty = false := by
  cases l with
  | nil => exact absurd rfl h
  | cons x t => rfl

lemma sortInts_eq_of_perm {l1 l2 : List Int} (h : l1.Perm l2) : sortInts l1 = sortInts l2 := by
  unfold sortInts
  exact List.eq_of_perm_of_sorted
    ((List.perm_insertionSort (· ≤ ·) l1).trans
      (h.trans (List.perm_insertionSort (· ≤ ·) l2).symm))
    (List.sorted_insertionSort (· ≤ ·) l1)
    (List.sorted_insertionSort (· ≤ ·) l2)

lemma firstSeen_subset : ∀ (l seen : List Nat), ∀ j ∈ firstSeen l seen, j ∈ l := by
  intro l
  induction l with
  | nil => intro seen j hj; simp [firstSeen] at hj
  | cons x rest ih =>
    intro seen j hj
    by_cases hx : x ∈ seen
    · rw [firstSeen, if_pos hx] at hj
      exact List.mem_cons_of_mem x (ih seen j hj)
    · rw [firstSeen, if_neg hx] at hj
      rcases List.mem_cons.mp hj with rfl | hj
      · exact List.mem_cons_self j rest
      · exact List.mem_cons_of_mem x (ih (x :: seen) j hj)

lemma shuffle_naive_swap_ok (a : List Int) (s : RngState) :
    ∃ out s1, shuffle_naive_swap a s = .ok out s1 ∧ out.Perm a := by
  by_cases hemp : a = []
  · subst hemp
    exact ⟨[], s, rfl, List.Perm.refl _⟩
  · have hn0 : 0 < a.length := List.length_pos.mpr hemp
    obtain ⟨out, s1, hrun, hperm⟩ := naiveSwapGo_ok_perm a.length a.length a s rfl hn0
    refine ⟨out, s1, ?_, hperm⟩
    rw [shuffle_naive_swap, isEmpty_false_of_ne_nil hemp]
    exact hrun

lemma shuffle_fisher_yates_ok (a : List Int) (s : RngState) :
    ∃ out s1, shuffle_fisher_yates a s = .ok out s1 ∧ out.Perm a := by
  by_cases hemp : a = []
  · subst hemp
    exact ⟨[], s, rfl, List.Perm.refl _⟩
  · have hn0 : 0 < a.length := List.length_pos.mpr hemp
    obtain ⟨out, s1, hrun, hperm⟩ := fisherYatesGo_ok_perm (a.length - 1) a s (by omega)
    refine ⟨out, s1, ?_, hperm⟩
    rw [shuffle_fisher_yates, isEmpty_false_of_ne_nil hemp]
    exact hrun

lemma shuffle_random_sort_ne_oob (a : List Int) (s : RngState) (fuel : Nat) :
    shuffle_random_sort fuel a s ≠ .oobError := by
  by_cases hemp : a = []
  · subst hemp
    intro h
    cases h
  · rw [shuffle_random_sort, isEmpty_false_of_ne_nil hemp]
    exact randomSortGo_ne_oob a a.length le_rfl fuel [] [] s

lemma shuffle_random_sort_perm {a : List Int} {s : RngState} {fuel : Nat}
    {out : List Int} {s1 : RngState}
    (h : shuffle_random_sort fuel a s = .ok out s1) : out.Perm a := by
  by_cases hemp : a = []
  · subst hemp
    rw [shuffle_random_sort] at h
    cases h
    exact List.Perm.refl _
  · rw [shuffle_random_sort, isEmpty_false_of_ne_nil hemp] at h
    exact randomSortGo_perm a a.length rfl fuel [] [] s out s1 h List.nodup_nil
      (by intro j hj; cases hj) rfl

lemma shuffle_random_sort_term (a : List Int) (s : RngState)
    (hcov : CoversResidues a.length s) :
    ∃ fuel out s1, shuffle_random_sort fuel a s = .ok out s1 := by
  by_cases hemp : a = []
  · exact ⟨1, a, s, by rw [shuffle_random_sort, hemp]; rfl⟩
  · obtain ⟨fuel, out, s1, hrun⟩ :=
      randomSortGo_term a a.length rfl a.length [] [] s hcov List.nodup_nil
        (by intro j hj; cases hj) rfl (by omega)
    refine ⟨fuel, out, s1, ?_⟩
    rw [shuffle_random_sort, isEmpty_false_of_ne_nil hemp]
    exact hrun

/-! ### Claim theorems -/

/-- C1: for every input sequence and RNG state, whenever any of the three
shuffle operations returns, the output is a permutation of the input
multiset: same length, same sorted view. -/
theorem shuffles_permutation (a : List Int) (s : RngState) :
    (∀ out s1, shuffle_naive_swap a s = .ok out s1 →
      out.Perm a ∧ out.length = a.length ∧ sortInts out = sortInts a) ∧
    (∀ out s1, shuffle_fisher_yates a s = .ok out s1 →
      out.Perm a ∧ out.length = a.length ∧ sortInts out = sortInts a) ∧
    (∀ fuel out s1, shuffle_random_sort fuel a s = .ok out s1 →
      out.Perm a ∧ out.length = a.length ∧ sortInts out = sortInts a) := by
  have pack : ∀ out : List Int, out.Perm a →
      out.Perm a ∧ out.length = a.length ∧ sortInts out = sortInts a :=
    fun out h => ⟨h, h.length_eq, sortInts_eq_of_perm h⟩
  refine ⟨?_, ?_, ?_⟩
  · intro out s1 h
    obtain ⟨out0, s0, hrun, hperm⟩ := shuffle_naive_swap_ok a s
    rw [hrun] at h
    cases h
    exact pack _ hperm
  · intro out s1 h
    obtain ⟨out0, s0, hrun, hperm⟩ := shuffle_fisher_yates_ok a s
    rw [hrun] at h
    cases h
    exact pack _ hperm
  · intro fuel out s1 h
    exact pack _ (shuffle_random_sort_perm h)

/-- Witness for C1 at input `[3, 1, 2]` and the constant-zero stream; the
Fisher–Yates shuffle there returns `[1, 2, 3]`. -/
theorem shuffles_permutation_witness :
    ([1, 2, 3] : List Int).Perm [3, 1, 2] ∧
      ([1, 2, 3] : List Int).length = ([3, 1, 2] : List Int).length ∧
      sortInts [1, 2, 3] = sortInts [3, 1, 2] :=
  (shuffles_permutation [3, 1, 2] (fun _ => 0)).2.1 [1, 2, 3] (fun _ => 0) rfl

/-- C2: one step of the `shuffle_fisher_yates` loop at index `i ≥ 1` draws
one raw value, maps it to `j = draw mod (i+1)` with `j ≤ i`, swaps positions
`i` and `j`, leaves every other position untouched, and continues at `i - 1`;
the loop starts at `i = n - 1`. -/
theorem fisher_yates_step (a : List Int) (s : RngState) (i : Nat)
    (h1 : 1 ≤ i) (h2 : i < a.length) :
    s 0 % (i + 1) ≤ i ∧
    ∃ a1, swap? a i (s 0 % (i + 1)) = some a1 ∧
      fisherYatesGo i a s = fisherYatesGo (i - 1) a1 (rngNext s).2 ∧
      a1.length = a.length ∧
      a1[s 0 % (i + 1)]? = a[i]? ∧
      a1[i]? = a[s 0 % (i + 1)]? ∧
      (∀ k, k ≠ i → k ≠ s 0 % (i + 1) → a1[k]? = a[k]?) ∧
      (a ≠ [] → shuffle_fisher_yates a s = fisherYatesGo (a.length - 1) a s) := by
  obtain ⟨m, rfl⟩ : ∃ m, i = m + 1 := ⟨i - 1, by omega⟩
  have hjlt : s 0 % (m + 1 + 1) < m + 1 + 1 := Nat.mod_lt _ (by omega)
  have hja : s 0 % (m + 1 + 1) < a.length := by omega
  obtain ⟨a1, ha1⟩ := swap?_isSome (j := s 0 % (m + 1 + 1)) h2 hja
  refine ⟨by omega, a1, ha1, ?_, swap?_length ha1, swap?_getElem_left ha1, ?_,
    fun k hki hkj => swap?_getElem_other ha1 hki hkj, ?_⟩
  · simp only [fisherYatesGo, rngNext_fst, ha1, Nat.add_sub_cancel]
  · rw [swap?_getElem_right ha1]
    by_cases he : m + 1 = s 0 % (m + 1 + 1)
    · rw [if_pos he, ← he]
    · rw [if_neg he]
  · intro hne
    rw [shuffle_fisher_yates, isEmpty_false_of_ne_nil hne]
    rfl

/-- Witness for C2 at input `[10, 20, 30]`, index `i = 2` and the
constant-one stream, where `j = 1 mod 3 = 1`. -/
theorem fisher_yates_step_witness :
    (1 : Nat) % 3 ≤ 2 ∧
    ∃ a1, swap? [10, 20, 30] 2 (1 % 3) = some a1 ∧
      fisherYatesGo 2 [10, 20, 30] (fun _ => 1) =
        fisherYatesGo 1 a1 (rngNext (fun _ => 1)).2 ∧
      a1.length = ([10, 20, 30] : List Int).length ∧
      a1[1 % 3]? = ([10, 20, 30] : List Int)[2]? ∧
      a1[2]? = ([10, 20, 30] : List Int)[1 % 3]? ∧
      (∀ k, k ≠ 2 → k ≠ 1 % 3 → a1[k]? = ([10, 20, 30] : List Int)[k]?) ∧
      (([10, 20, 30] : List Int) ≠ [] →
        shuffle_fisher_yates [10, 20, 30] (fun _ => 1) =
          fisherYatesGo (([10, 20, 30] : List Int).length - 1) [10, 20, 30]
            (fun _ => 1)) :=
  fisher_yates_step [10, 20, 30] (fun _ => 1) 2 (by decide) (by decide)

/-- C3: one step of the `shuffle_naive_swap` loop at index `i` (remaining
iterations `n - i`, indices visited in forward order) draws `j` uniformly
over the FULL range `[0, n)` — modulus `n`, not the shrinking range — and
swaps positions `i` and `j`, leaving every other position untouched. -/
theorem naive_swap_step (a : List Int) (s : RngState) (i : Nat)
    (h1 : i < a.length) :
    s 0 % a.length < a.length ∧
    ∃ a1, swap? a i (s 0 % a.length) = some a1 ∧
      naiveSwapGo a.length (a.length - i) a s =
        naiveSwapGo a.length (a.length - i - 1) a1 (rngNext s).2 ∧
      a1.length = a.length ∧
      a1[s 0 % a.length]? = a[i]? ∧
      a1[i]? = a[s 0 % a.length]? ∧
      (∀ k, k ≠ i → k ≠ s 0 % a.length → a1[k]? = a[k]?) ∧
      (a ≠ [] → shuffle_naive_swap a s = naiveSwapGo a.length a.length a s) := by
  have hn0 : 0 < a.length := by omega
  have hj : s 0 % a.length < a.length := Nat.mod_lt _ hn0
  obtain ⟨a1, ha1⟩ := swap?_isSome (j := s 0 % a.length) h1 hj
  obtain ⟨k, hk⟩ : ∃ k, a.length - i = k + 1 := ⟨a.length - i - 1, by omega⟩
  have hidx : a.length - (k + 1) = i := by omega
  refine ⟨hj, a1, ha1, ?_, swap?_length ha1, swap?_getElem_left ha1, ?_,
    fun k2 hki hkj => swap?_getElem_other ha1 hki hkj, ?_⟩
  · rw [hk]
    simp only [naiveSwapGo, distDraw_fst, distDraw_snd, rngNext_snd, hidx, ha1]
    rw [Nat.add_sub_cancel]
  · rw [swap?_getElem_right ha1]
    by_cases he : i = s 0 % a.length
    · rw [if_pos he, ← he]
    · rw [if_neg he]
  · intro hne
    rw [shuffle_naive_swap, isEmpty_false_of_ne_nil hne]
    rfl

/-- Witness for C3 at input `[7, 8, 9]`, index `i = 0` and the constant-two
stream, where `j = 2 mod 3 = 2`. -/
theorem naive_swap_step_witness :
    (2 : Nat) % 3 < 3 ∧
    ∃ a1, swap? [7, 8, 9] 0 (2 % 3) = some a1 ∧
      naiveSwapGo 3 3 [7, 8, 9] (fun _ => 2) =
        naiveSwapGo 3 2 a1 (rngNext (fun _ => 2)).2 ∧
      a1.length = ([7, 8, 9] : List Int).length ∧
      a1[2 % 3]? = ([7, 8, 9] : List Int)[0]? ∧
      a1[0]? = ([7, 8, 9] : List Int)[2 % 3]? ∧
      (∀ k, k ≠ 0 → k ≠ 2 % 3 → a1[k]? = ([7, 8, 9] : List Int)[k]?) ∧
      (([7, 8, 9] : List Int) ≠ [] →
        shuffle_naive_swap [7, 8, 9] (fun _ => 2) =
          naiveSwapGo ([7, 8, 9] : List Int).length ([7, 8, 9] : List Int).length
            [7, 8, 9] (fun _ => 2)) :=
  naive_swap_step [7, 8, 9] (fun _ => 2) 0 (by decide)

/-- C4: whenever `shuffle_random_sort` returns, there is a number `k` of
draws such that every drawn index is in `[0, n)`, the indices admitted by
the dedup set (the first occurrences, in draw order) are distinct and exactly
`n` many — the loop stops once `n` distinct indices have been drawn — the
returned sequence is the elements of the input at those indices in
first-drawn order, and the RNG state has advanced by exactly `k` draws. -/
theorem random_sort_characterization (a : List Int) (s : RngState) (fuel : Nat)
    (out : List Int) (s1 : RngState) (hne : a ≠ [])
    (hrun : shuffle_random_sort fuel a s = .ok out s1) :
    ∃ k, (∀ d ∈ drawsOf s a.length k, d < a.length) ∧
      (firstSeen (drawsOf s a.length k) []).Nodup ∧
      (firstSeen (drawsOf s a.length k) []).length = a.length ∧
      out = (firstSeen (drawsOf s a.length k) []).map (fun j => a.getD j 0) ∧
      s1 = fun m => s (m + k) := by
  have hn0 : 0 < a.length := List.length_pos.mpr hne
  rw [shuffle_random_sort, isEmpty_false_of_ne_nil hne] at hrun
  obtain ⟨k, h1, h2, h3⟩ := randomSortGo_char a a.length rfl fuel [] [] s out s1 hrun
  refine ⟨k, ?_, firstSeen_nodup _ _, ?_, by simpa using h1, h2⟩
  · intro d hd
    simp only [drawsOf, List.mem_map, List.mem_range] at hd
    obtain ⟨m, _, rfl⟩ := hd
    exact Nat.mod_lt _ hn0
  · have hlen := h3 (by simp)
    simpa using hlen

/-- Witness for C4 at input `[10, 20]`, the identity stream and fuel 4: the
loop draws indices 0 then 1 and returns `[10, 20]` after two draws. -/
theorem random_sort_characterization_witness :
    ∃ k, (∀ d ∈ drawsOf (fun m => m) ([10, 20] : List Int).length k,
        d < ([10, 20] : List Int).length) ∧
      (firstSeen (drawsOf (fun m => m) ([10, 20] : List Int).length k) []).Nodup ∧
      (firstSeen (drawsOf (fun m => m) ([10, 20] : List Int).length k) []).length
        = ([10, 20] : List Int).length ∧
      ([10, 20] : List Int) =
        (firstSeen (drawsOf (fun m => m) ([10, 20] : List Int).length k) []).map
          (fun j => ([10, 20] : List Int).getD j 0) ∧
      (fun m => m + 2 : RngState) = fun m => (fun m => m : RngState) (m + k) :=
  random_sort_characterization [10, 20] (fun m => m) 4 [10, 20] (fun m => m + 2)
    (by decide) rfl

/-- C5: on inputs of length 0 or 1 each shuffle leaves the sequence exactly
equal to the input (for the fuelled random-sort loop: whenever it returns). -/
theorem shuffles_trivial_input (a : List Int) (s : RngState) (hlen : a.length ≤ 1) :
    (∃ s1, shuffle_naive_swap a s = .ok a s1) ∧
    (∃ s1, shuffle_fisher_yates a s = .ok a s1) ∧
    (∀ fuel out s1, shuffle_random_sort fuel a s = .ok out s1 → out = a) := by
  match a, hlen with
  | [], _ =>
    refine ⟨⟨s, rfl⟩, ⟨s, rfl⟩, ?_⟩
    intro fuel out s1 h
    have h2 : ShuffleResult.ok ([] : List Int) s = .ok out s1 := h
    cases h2
    rfl
  | [x], _ =>
    refine ⟨?_, ⟨s, rfl⟩, ?_⟩
    · refine ⟨fun k => s (k + 1), ?_⟩
      have h0 : s 0 % 1 = 0 := Nat.mod_one _
      have hstep : shuffle_naive_swap [x] s = naiveSwapGo 1 1 [x] s := rfl
      rw [hstep]
      simp [naiveSwapGo, distDraw_fst, distDraw_snd, h0, swap?]
    · intro fuel out s1 h
      rw [shuffle_random_sort, isEmpty_false_of_ne_nil (by simp)] at h
      obtain ⟨k, h1, h2, h3⟩ := randomSortGo_char [x] 1 rfl fuel [] [] s out s1 h
      have hF := h3 (by simp)
      simp only [List.length_nil, Nat.zero_add] at hF
      obtain ⟨j, hFj⟩ := List.length_eq_one.mp hF
      have hjmem : j ∈ firstSeen (drawsOf s 1 k) [] := by
        rw [hFj]
        exact List.mem_singleton_self j
      have hj0 : j = 0 := by
        have hmem := firstSeen_subset _ _ j hjmem
        simp only [drawsOf, List.mem_map, List.mem_range] at hmem
        obtain ⟨m, _, hm⟩ := hmem
        omega
      rw [h1, hFj, hj0]
      rfl

/-- Witness for C5 at the singleton input `[5]` and the constant-seven
stream. -/
theorem shuffles_trivial_input_witness :
    (∃ s1, shuffle_naive_swap [5] (fun _ => 7) = .ok [5] s1) ∧
    (∃ s1, shuffle_fisher_yates [5] (fun _ => 7) = .ok [5] s1) ∧
    (∀ fuel out s1, shuffle_random_sort fuel [5] (fun _ => 7) = .ok out s1 →
      out = [5]) :=
  shuffles_trivial_input [5] (fun _ => 7) (by decide)

/-- C6: the shared RNG cell is seeded exactly once: a first call to
`get_rng` (flag unset) seeds the generator from the clock and sets the flag;
any call on an already-initialized cell returns the cell untouched — no
reseeding ever happens after initialization. -/
theorem get_rng_seed_once (seedOf : Int → RngState) (clock : Int) :
    (∀ g0 : RngState, get_rng seedOf clock ⟨g0, false⟩ =
      (seedOf clock, ⟨seedOf clock, true⟩)) ∧
    (∀ c : RngCell, c.seeded = true → get_rng seedOf clock c = (c.gen, c)) := by
  constructor
  · intro g0
    rfl
  · intro c hc
    rw [get_rng, if_neg (by simp [hc])]

/-- Witness for C6: a first call seeds and sets the flag, a second call on
the seeded cell is the identity. -/
theorem get_rng_seed_once_witness :
    get_rng (fun _ => fun _ => 0) 42 ⟨(fun _ => 9), false⟩ =
      ((fun _ => 0), ⟨(fun _ => 0), true⟩) ∧
    get_rng (fun _ => fun _ => 0) 42 ⟨(fun _ => 9), true⟩ =
      ((fun _ => 9), ⟨(fun _ => 9), true⟩) :=
  ⟨(get_rng_seed_once (fun _ => fun _ => 0) 42).1 (fun _ => 9),
   (get_rng_seed_once (fun _ => fun _ => 0) 42).2 ⟨(fun _ => 9), true⟩ rfl⟩

/-- C7: all three shuffles accept every finite sequence (the empty one
included) and no error branch is reachable: the two swap loops always return
a result, and the random-sort loop can never hit the out-of-bounds branch,
for any input, fuel, and RNG state. -/
theorem shuffles_total_no_error (a : List Int) (s : RngState) :
    (∃ out s1, shuffle_naive_swap a s = .ok out s1) ∧
    (∃ out s1, shuffle_fisher_yates a s = .ok out s1) ∧
    (∀ fuel, shuffle_random_sort fuel a s ≠ .oobError) := by
  obtain ⟨o1, t1, h1, _⟩ := shuffle_naive_swap_ok a s
  obtain ⟨o2, t2, h2, _⟩ := shuffle_fisher_yates_ok a s
  exact ⟨⟨o1, t1, h1⟩, ⟨o2, t2, h2⟩, fun fuel => shuffle_random_sort_ne_oob a s fuel⟩

/-- C8: every shuffle call terminates: the two swap loops on every input and
state, and the random-sort draw loop whenever the raw stream keeps producing
every residue class mod `n` (as the full-period `std::mt19937` does) — then
some finite fuel suffices for the loop to return. -/
theorem shuffles_terminate (a : List Int) (s : RngState) :
    (∃ out s1, shuffle_naive_swap a s = .ok out s1) ∧
    (∃ out s1, shuffle_fisher_yates a s = .ok out s1) ∧
    (CoversResidues a.length s →
      ∃ fuel out s1, shuffle_random_sort fuel a s = .ok out s1) := by
  obtain ⟨o1, t1, h1, _⟩ := shuffle_naive_swap_ok a s
  obtain ⟨o2, t2, h2, _⟩ := shuffle_fisher_yates_ok a s
  exact ⟨⟨o1, t1, h1⟩, ⟨o2, t2, h2⟩, fun hcov => shuffle_random_sort_term a s hcov⟩

/-- Witness for C8: the identity stream covers both residues mod 2, so the
random-sort loop on `[10, 20]` finishes with some fuel. -/
theorem shuffles_terminate_witness :
    ∃ fuel out s1, shuffle_random_sort fuel [10, 20] (fun m => m) = .ok out s1 :=
  (shuffles_terminate [10, 20] (fun m => m)).2.2 (by
    intro k j hj
    refine ⟨2 * k + j, by omega, ?_⟩
    simp only [List.length_cons, List.length_nil] at hj ⊢
    omega)

/-- C9: each shuffle is deterministic in the input sequence and the RNG
state (and, for the fuelled loop, the fuel): equal inputs and equal states
give equal results — output sequence and final RNG state alike. -/
theorem shuffles_deterministic (a1 a2 : List Int) (s1 s2 : RngState)
    (fuel1 fuel2 : Nat) (ha : a1 = a2) (hs : s1 = s2) (hf : fuel1 = fuel2) :
    shuffle_naive_swap a1 s1 = shuffle_naive_swap a2 s2 ∧
    shuffle_fisher_yates a1 s1 = shuffle_fisher_yates a2 s2 ∧
    shuffle_random_sort fuel1 a1 s1 = shuffle_random_sort fuel2 a2 s2 := by
  subst ha
  subst hs
  subst hf
  exact ⟨rfl, rfl, rfl⟩

/-- Witness for C9 at input `[1, 2]`, the constant-zero stream and fuel 3. -/
theorem shuffles_deterministic_witness :
    shuffle_naive_swap [1, 2] (fun _ => 0) = shuffle_naive_swap [1, 2] (fun _ => 0) ∧
    shuffle_fisher_yates [1, 2] (fun _ => 0) = shuffle_fisher_yates [1, 2] (fun _ => 0) ∧
    shuffle_random_sort 3 [1, 2] (fun _ => 0) = shuffle_random_sort 3 [1, 2] (fun _ => 0) :=
  shuffles_deterministic [1, 2] [1, 2] (fun _ => 0) (fun _ => 0) 3 3 rfl rfl rfl

/-- C10: every index used to access the sequence is in bounds: a `[0, n)`
draw is strictly below `n`, the Fisher–Yates index `raw mod (i+1)` is at most
`i`, and consequently the out-of-bounds branch of the Option-valued indexing
is unreachable in all three shuffles. -/
theorem shuffles_index_bounds (a : List Int) (s : RngState) (n i : Nat)
    (hn : 0 < n) :
    (distDraw n s).1 < n ∧
    (rngNext s).1 % (i + 1 + 1) ≤ i + 1 ∧
    shuffle_naive_swap a s ≠ .oobError ∧
    shuffle_fisher_yates a s ≠ .oobError ∧
    (∀ fuel, shuffle_random_sort fuel a s ≠ .oobError) := by
  refine ⟨distDraw_lt hn s, ?_, ?_, ?_, fun fuel => shuffle_random_sort_ne_oob a s fuel⟩
  · have hm := Nat.mod_lt ((rngNext s).1) (show 0 < i + 1 + 1 by omega)
    omega
  · obtain ⟨o, t, h, _⟩ := shuffle_naive_swap_ok a s
    rw [h]
    intro hcon
    cases hcon
  · obtain ⟨o, t, h, _⟩ := shuffle_fisher_yates_ok a s
    rw [h]
    intro hcon
    cases hcon

/-- Witness for C10 at input `[1, 2]`, the constant-five stream, range 3 and
loop index 0. -/
theorem shuffles_index_bounds_witness :
    (distDraw 3 (fun _ => 5)).1 < 3 ∧
    (rngNext (fun _ => 5)).1 % (0 + 1 + 1) ≤ 0 + 1 ∧
    shuffle_naive_swap [1, 2] (fun _ => 5) ≠ .oobError ∧
    shuffle_fisher_yates [1, 2] (fun _ => 5) ≠ .oobError ∧
    (∀ fuel, shuffle_random_sort fuel [1, 2] (fun _ => 5) ≠ .oobError) :=
  shuffles_index_bounds [1, 2] (fun _ => 5) 3 0 (by decide)
